import Mathlib

set_option linter.unusedVariables false
set_option maxRecDepth 8192

namespace Nexmark

/-- A deterministic pseudo-random source: an infinite stream of raw natural
draws plus a cursor.  This abstracts `rand::rngs::SmallRng`: the concrete
xoshiro algorithm is irrelevant to the verified properties, which quantify
over every possible stream. -/
structure Rng where
  stream : Nat → Nat
  pos : Nat

/-- One raw draw (models drawing one machine word from the PRNG). -/
def Rng.next (r : Rng) : Nat × Rng :=
  (r.stream r.pos, ⟨r.stream, r.pos + 1⟩)

/-- Models `rng.gen_range(lo..hi)`: consumes one draw and produces a value in
`[lo, hi)`.  `none` models the Rust panic on an empty range. -/
def Rng.genRange (r : Rng) (lo hi : Nat) : Option (Nat × Rng) :=
  if lo < hi then some (lo + r.stream r.pos % (hi - lo), ⟨r.stream, r.pos + 1⟩) else none

/-- Models `SmallRng::seed_from_u64`: `alg` abstracts the seed-to-stream expansion of
the PRNG algorithm; one fixed `alg` is shared by every component of a program
run, and a fresh seeded source always starts at cursor 0. -/
def seed_from_u64 (alg : Nat → Nat → Nat) (seed : Nat) : Rng :=
  ⟨alg seed, 0⟩

/-- Models `SliceRandom::choose`: picks a uniform index below the length; `none`
models `choose` returning `None` on an empty slice (unwrapped in the source). -/
def Rng.choose {α : Type} (r : Rng) (xs : List α) : Option (α × Rng) := do
  let (i, r') ← r.genRange 0 xs.length
  let a ← xs.get? i
  pure (a, r')

/-- Models `MIN_STRING_LENGTH` from `utils.rs`. -/
def MIN_STRING_LENGTH : Nat := 3

/-- Byte codes of an ASCII string literal (strings are modelled as lists of
byte codes throughout). -/
def strCodes (s : String) : List Nat :=
  s.toList.map Char.toNat

/-- Models `gen_exact_string` from `utils.rs`: `length` characters, each drawn by
`gen_range(b'a'..=b'z')` (codes 97 to 122), collected left to right. -/
def Rng.gen_exact_string : Rng → Nat → Option (List Nat × Rng)
  | r, 0 => some ([], r)
  | r, n + 1 => do
    let (c, r') ← r.genRange 97 123
    let (s, r'') ← r'.gen_exact_string n
    pure (c :: s, r'')

/-- Models `gen_string` from `utils.rs`: despite the name it delegates to
`gen_exact_string max`. -/
def Rng.gen_string (r : Rng) (max : Nat) : Option (List Nat × Rng) :=
  r.gen_exact_string max

/-- One character of `gen_string_with_delimiter`: the delimiter when the
13-sided draw hits 0, otherwise a lowercase letter. -/
def Rng.gen_delim_char (r : Rng) (delimiter : Nat) : Option (Nat × Rng) := do
  let (d, r') ← r.genRange 0 13
  if d = 0 then pure (delimiter, r') else r'.genRange 97 123

/-- The character-collection loop of `gen_string_with_delimiter`. -/
def Rng.gen_delim_chars : Rng → Nat → Nat → Option (List Nat × Rng)
  | r, 0, _ => some ([], r)
  | r, n + 1, delimiter => do
    let (c, r') ← r.gen_delim_char delimiter
    let (s, r'') ← r'.gen_delim_chars n delimiter
    pure (c :: s, r'')

/-- Models `gen_string_with_delimiter` from `utils.rs`: length drawn from
`MIN_STRING_LENGTH..max` (panics, i.e. `none`, when that range is empty). -/
def Rng.gen_string_with_delimiter (r : Rng) (max : Nat) (delimiter : Nat) :
    Option (List Nat × Rng) := do
  let (len, r') ← r.genRange MIN_STRING_LENGTH max
  r'.gen_delim_chars len delimiter

/-- Models `gen_next_extra` from `utils.rs`: size-converging padding.  The source
shadows `desired_average_size` with the remaining size; it is called
`remaining` here. -/
def Rng.gen_next_extra (r : Rng) (current_size desired_average_size : Nat) :
    Option (List Nat × Rng) :=
  if current_size > desired_average_size then some ([], r)
  else do
    let remaining := desired_average_size - current_size
    let delta := (remaining + 2) / 5
    let min_size := remaining - delta
    let (u, r') ← if delta = 0 then pure (0, r) else r.genRange 0 (2 * delta)
    r'.gen_exact_string (min_size + u)

/-- Models `gen_price` from `utils.rs` — the source computes
`(10f32.powf(gen f32 * 6.0) * 100.0).round() as usize` from one fresh draw;
the floating-point shaping is abstracted to the raw draw itself, keeping
exactly what the claims use: a nonnegative machine integer obtained from one
draw of the source. -/
def Rng.gen_price (r : Rng) : Nat × Rng :=
  r.next

/-- Models `get_base_url` from `utils.rs`: the three delimited segments (delimiter 95,
the code of the underscore) spliced into the fixed URL skeleton (47 is the
code of the slash between segments). -/
def get_base_url (alg : Nat → Nat → Nat) (seed : Nat) : Option (List Nat) := do
  let rng := seed_from_u64 alg seed
  let (id0, rng) ← rng.gen_string_with_delimiter 5 95
  let (id1, rng) ← rng.gen_string_with_delimiter 5 95
  let (id2, rng) ← rng.gen_string_with_delimiter 5 95
  pure (strCodes "https://www.nexmark.com/" ++ id0 ++ [47] ++ id1 ++ [47] ++ id2 ++
    strCodes "/item.htm?query=1")

/-- Models the 32-bit `reverse_bits` from `utils.rs` (on `i as i32`). -/
def reverseBits32 (n : Nat) : Nat :=
  (List.range 32).foldl (fun acc j => acc * 2 + n / 2 ^ j % 2) 0

/-- Models `i64::abs((i as i32).reverse_bits() as i64)` from `utils.rs`: the reversed
32-bit pattern read as a signed 32-bit integer, then its absolute value. -/
def absRevBits (i : Nat) : Nat :=
  let r := reverseBits32 (i % 2 ^ 32)
  if r < 2 ^ 31 then r else 2 ^ 32 - r

/-- Decimal digit codes of a natural number (models `to_string`/`format!` on
integers). -/
def natCodes (n : Nat) : List Nat :=
  strCodes (toString n)

/-- The body of the `build_channel_url_map` loop in `utils.rs` for one index
`i`: base URL, a 9-in-10 chance of the `channel_id` query parameter derived
from the bit-reversal of `i`, and the channel name `channel-i`. -/
def channelUrlEntry (alg : Nat → Nat → Nat) (i : Nat) : Option (List Nat × List Nat) := do
  let url ← get_base_url alg i
  let rng := seed_from_u64 alg i
  let (d, _rng) ← rng.genRange 0 10
  let url := if d > 0 then url ++ strCodes "&channel_id=" ++ natCodes (absRevBits i) else url
  let channel := strCodes "channel-" ++ natCodes i
  pure (channel, url)

/-- Models `build_channel_url_map` from `utils.rs`: the loop pushes the entry for each
`i` in `0..channel_number` in order. -/
def build_channel_url_map (alg : Nat → Nat → Nat) (channel_number : Nat) :
    List (Option (List Nat × List Nat)) :=
  (List.range channel_number).map (channelUrlEntry alg)

/-- Models `CHANNEL_NUMBER` from `utils.rs`. -/
def CHANNEL_NUMBER : Nat := 10000

/-- The `CHANNEL_URL_MAP` lazy static from `utils.rs`. -/
def CHANNEL_URL_MAP (alg : Nat → Nat → Nat) : List (Option (List Nat × List Nat)) :=
  build_channel_url_map alg CHANNEL_NUMBER

/-- Modelled from the spec (`GeneratorConfig` lives in `config.rs`, which is
not among the provided sources): the immutable generation parameters of
section 3.  The `event_timestamp` rate model is external configuration
(section 4.1), kept as an abstract field; claims needing it assume it
non-decreasing.  The hot ratio fields carry a trailing underscore in their
names.  Strings are lists of byte codes. -/
structure GeneratorConfig where
  first_event_id : Nat
  first_person_id : Nat
  first_auction_id : Nat
  first_category_id : Nat
  num_categories : Nat
  person_proportion : Nat
  auction_proportion : Nat
  bid_proportion : Nat
  active_people : Nat
  in_flight_auctions : Nat
  person_id_lead : Nat
  auction_id_lead : Nat
  hot_seller_ratio_ : Nat
  hot_auction_ratio_ : Nat
  hot_bidder_ratio_ : Nat
  hot_channel_ratio_ : Nat
  avg_person_byte_size : Nat
  avg_auction_byte_size : Nat
  avg_bid_byte_size : Nat
  first_names : List (List Nat)
  last_names : List (List Nat)
  us_cities : List (List Nat)
  us_states : List (List Nat)
  hot_channels : List (List Nat)
  hot_urls : List (List Nat)
  base_time : Nat
  event_timestamp : Nat → Nat

/-- The proportion denominator: the sum of the three proportions (spec
section 3 invariant, definitional here). -/
def GeneratorConfig.proportion_denominator (c : GeneratorConfig) : Nat :=
  c.person_proportion + c.auction_proportion + c.bid_proportion

/-- The type of a Nexmark event (`event.rs`). -/
inductive EventType where
  | Person
  | Auction
  | Bid
deriving DecidableEq

/-- Modelled from the spec (section 4.1, `config.rs` is not among the provided
sources): `offset = index mod proportion_denominator`; Person when
`offset < person_proportion`, Auction when
`offset < person_proportion + auction_proportion`, else Bid. -/
def GeneratorConfig.event_type (c : GeneratorConfig) (event_number : Nat) : EventType :=
  let offset := event_number % c.proportion_denominator
  if offset < c.person_proportion then EventType.Person
  else if offset < c.person_proportion + c.auction_proportion then EventType.Auction
  else EventType.Bid

/-- The Person record from `event.rs`. -/
structure Person where
  id : Nat
  name : List Nat
  email_address : List Nat
  credit_card : List Nat
  city : List Nat
  state : List Nat
  date_time : Nat
  extra : List Nat
deriving DecidableEq

/-- The Auction record from `event.rs`. -/
structure Auction where
  id : Nat
  item_name : List Nat
  description : List Nat
  initial_bid : Nat
  reserve : Nat
  date_time : Nat
  expires : Nat
  seller : Nat
  category : Nat
  extra : List Nat
deriving DecidableEq

/-- The Bid record from `event.rs`. -/
structure Bid where
  auction : Nat
  bidder : Nat
  price : Nat
  channel : List Nat
  url : List Nat
  date_time : Nat
  extra : List Nat
deriving DecidableEq

/-- The Event tagged union from `event.rs`. -/
inductive Event where
  | Person (p : Person)
  | Auction (a : Auction)
  | Bid (b : Bid)
deriving DecidableEq

/-- Models `HOT_SELLER_RATIO` from `event.rs` (trailing underscore in the name). -/
def HOT_SELLER_RATIO_ : Nat := 100

/-- Models `HOT_AUCTION_RATIO` from `event.rs` (trailing underscore in the name). -/
def HOT_AUCTION_RATIO_ : Nat := 100

/-- Models `HOT_BIDDER_RATIO` from `event.rs` (trailing underscore in the name). -/
def HOT_BIDDER_RATIO_ : Nat := 100

/-- Models `Person::last_id` from `event.rs`: closed-form highest person id existing
at `event_id`. -/
def Person.last_id (event_id : Nat) (nex : GeneratorConfig) : Nat :=
  let epoch := event_id / nex.proportion_denominator
  let offset := min (event_id % nex.proportion_denominator) (nex.person_proportion - 1)
  epoch * nex.person_proportion + offset

/-- Models `Person::next_id` from `event.rs`: recency-biased person reference with
lead, over the last `active_people` window. -/
def Person.next_id (event_id : Nat) (rng : Rng) (nex : GeneratorConfig) :
    Option (Nat × Rng) := do
  let people := Person.last_id event_id nex + 1
  let active := min people nex.active_people
  let (d, rng) ← rng.genRange 0 (active + nex.person_id_lead)
  pure (people - active + d, rng)

/-- Models `Auction::last_id` from `event.rs`.  The epoch decrement on the
person-sub-range branch is a `usize` subtraction that underflows (panics) when
`epoch = 0`; that branch is the explicit `none`.  The `auction_proportion - 1`
subtractions only underflow for a zero auction proportion, excluded by the
positive-proportion configuration invariant assumed in the theorems, and are
kept as truncated subtraction. -/
def Auction.last_id (event_id : Nat) (nex : GeneratorConfig) : Option Nat :=
  let epoch := event_id / nex.proportion_denominator
  let offset := event_id % nex.proportion_denominator
  if offset < nex.person_proportion then
    if epoch = 0 then none
    else some ((epoch - 1) * nex.auction_proportion + (nex.auction_proportion - 1))
  else if nex.person_proportion + nex.auction_proportion ≤ offset then
    some (epoch * nex.auction_proportion + (nex.auction_proportion - 1))
  else
    some (epoch * nex.auction_proportion + (offset - nex.person_proportion))

/-- Models `Auction::next_id` from `event.rs`: recency-biased auction reference with
lead, over the last `in_flight_auctions` window. -/
def Auction.next_id (event_id : Nat) (rng : Rng) (nex : GeneratorConfig) :
    Option (Nat × Rng) := do
  let max_auction ← Auction.last_id event_id nex
  let min_auction := if max_auction < nex.in_flight_auctions then 0
    else max_auction - nex.in_flight_auctions
  let (d, rng) ← rng.genRange 0 (max_auction - min_auction + 1 + nex.auction_id_lead)
  pure (min_auction + d, rng)

/-- Models `Auction::next_length` from `event.rs`: duration from the timestamp
horizon `in_flight_auctions` auction-slots ahead.  The `u64` subtraction
`future_auction - time` panics on underflow (checked here, `none`). -/
def Auction.next_length (event_number : Nat) (rng : Rng) (time : Nat)
    (cfg : GeneratorConfig) : Option (Nat × Rng) := do
  let events_for_auctions :=
    cfg.in_flight_auctions * cfg.proportion_denominator / cfg.auction_proportion
  let future_auction := cfg.event_timestamp (event_number + events_for_auctions)
  let horizon ← if time ≤ future_auction then some (future_auction - time) else none
  let (d, rng) ← rng.genRange 0 (max (horizon * 2) 1)
  pure (1 + d, rng)

/-- Digit codes of the `"{:04}"` rendering of a number below 10000 (used for
the credit card groups in `Person::new`). -/
def pad4 (n : Nat) : List Nat :=
  [48 + n / 1000 % 10, 48 + n / 100 % 10, 48 + n / 10 % 10, 48 + n % 10]

/-- Models `Person::new` from `event.rs`: a fresh source seeded from the event id,
fields drawn in source order.  32 is the space code, 64 the at-sign code. -/
def Person.new (alg : Nat → Nat → Nat) (id : Nat) (time : Nat)
    (cfg : GeneratorConfig) : Option Person := do
  let rng := seed_from_u64 alg id
  let pid := Person.last_id id cfg + cfg.first_person_id
  let (first, rng) ← rng.choose cfg.first_names
  let (last, rng) ← rng.choose cfg.last_names
  let name := first ++ [32] ++ last
  let (e0, rng) ← rng.gen_string 7
  let (e1, rng) ← rng.gen_string 5
  let email_address := e0 ++ [64] ++ e1 ++ strCodes ".com"
  let (c0, rng) ← rng.genRange 0 10000
  let (c1, rng) ← rng.genRange 0 10000
  let (c2, rng) ← rng.genRange 0 10000
  let (c3, rng) ← rng.genRange 0 10000
  let credit_card := pad4 c0 ++ [32] ++ pad4 c1 ++ [32] ++ pad4 c2 ++ [32] ++ pad4 c3
  let (city, rng) ← rng.choose cfg.us_cities
  let (state, rng) ← rng.choose cfg.us_states
  let current_size := 8 + name.length + email_address.length + credit_card.length +
    city.length + state.length
  let (extra, _rng) ← rng.gen_next_extra current_size cfg.avg_person_byte_size
  pure { id := pid, name := name, email_address := email_address,
         credit_card := credit_card, city := city, state := state,
         date_time := time, extra := extra }

/-- Models `Auction::new` from `event.rs`: a fresh source seeded from the event id,
fields drawn in source order; the hot-seller branch picks the start of the
newest block of `HOT_SELLER_RATIO` people. -/
def Auction.new (alg : Nat → Nat → Nat) (event_number event_id time : Nat)
    (cfg : GeneratorConfig) : Option Auction := do
  let rng := seed_from_u64 alg event_id
  let id := (← Auction.last_id event_id cfg) + cfg.first_auction_id
  let (item_name, rng) ← rng.gen_string 20
  let (description, rng) ← rng.gen_string 100
  let (initial_bid, rng) := rng.gen_price
  let (p2, rng) := rng.gen_price
  let reserve := initial_bid + p2
  let (len, rng) ← Auction.next_length event_number rng time cfg
  let expires := time + len
  let (h, rng) ← rng.genRange 0 cfg.hot_seller_ratio_
  let (seller, rng) ←
    if h > 0 then pure (Person.last_id event_id cfg / HOT_SELLER_RATIO_ * HOT_SELLER_RATIO_, rng)
    else Person.next_id event_id rng cfg
  let seller := seller + cfg.first_person_id
  let (c, rng) ← rng.genRange 0 cfg.num_categories
  let category := cfg.first_category_id + c
  let current_size := 8 + item_name.length + description.length + 8 + 8 + 8 + 8 + 8
  let (extra, _rng) ← rng.gen_next_extra current_size cfg.avg_auction_byte_size
  pure { id := id, item_name := item_name, description := description,
         initial_bid := initial_bid, reserve := reserve, date_time := time,
         expires := expires, seller := seller, category := category, extra := extra }

/-- The `(channel, url)` selection of `Bid::new` in `event.rs`: hot channel
with probability `1 - 1/hot_channel_ratio` (index into the configured hot
lists, panicking — `none` — when `hot_urls` is shorter), otherwise a uniform
pick from the precomputed channel/URL table. -/
def Bid.choose_channel (alg : Nat → Nat → Nat) (rng : Rng)
    (nex : GeneratorConfig) : Option ((List Nat × List Nat) × Rng) := do
  let (hc, rng) ← rng.genRange 0 nex.hot_channel_ratio_
  if hc > 0 then do
    let (index, rng) ← rng.genRange 0 nex.hot_channels.length
    let c ← nex.hot_channels.get? index
    let u ← nex.hot_urls.get? index
    pure ((c, u), rng)
  else do
    let (e, rng) ← rng.choose (CHANNEL_URL_MAP alg)
    let p ← e
    pure (p, rng)

/-- Models `Bid::new` from `event.rs`: a fresh source seeded from the event id; hot
branches pick the start of the newest block of the corresponding hot constant
(plus one for bidders, keeping hot bidders and hot sellers distinct). -/
def Bid.new (alg : Nat → Nat → Nat) (event_id time : Nat)
    (nex : GeneratorConfig) : Option Bid := do
  let rng := seed_from_u64 alg event_id
  let (ha, rng) ← rng.genRange 0 nex.hot_auction_ratio_
  let (auction, rng) ←
    if 0 < ha then do
      let last ← Auction.last_id event_id nex
      pure (last / HOT_AUCTION_RATIO_ * HOT_AUCTION_RATIO_, rng)
    else Auction.next_id event_id rng nex
  let (hb, rng) ← rng.genRange 0 nex.hot_bidder_ratio_
  let (bidder, rng) ←
    if 0 < hb then
      pure (Person.last_id event_id nex / HOT_BIDDER_RATIO_ * HOT_BIDDER_RATIO_ + 1, rng)
    else Person.next_id event_id rng nex
  let (price, rng) := rng.gen_price
  let (cu, rng) ← Bid.choose_channel alg rng nex
  let current_size := 8 + 8 + 8 + 8
  let (extra, _rng) ← rng.gen_next_extra current_size nex.avg_bid_byte_size
  pure { auction := auction + nex.first_auction_id, bidder := bidder + nex.first_person_id,
         price := price, channel := cu.1, url := cu.2, date_time := time, extra := extra }

/-- Models `Event::new` from `event.rs`: the event id is the configured offset plus
the event number; the kind and timestamp come from the configuration's pure
index functions. -/
def Event.new (alg : Nat → Nat → Nat) (event_number : Nat)
    (cfg : GeneratorConfig) : Option Event :=
  let id := cfg.first_event_id + event_number
  let timestamp := cfg.event_timestamp event_number
  match cfg.event_type event_number with
  | EventType.Person => (Person.new alg id timestamp cfg).map Event.Person
  | EventType.Auction => (Auction.new alg event_number id timestamp cfg).map Event.Auction
  | EventType.Bid => (Bid.new alg id timestamp cfg).map Event.Bid

/-- Modelled from the spec (section 6; the `EventGenerator` iterator lives in
`lib.rs`, which is not among the provided sources): the pull-based restartable
lazy sequence of events for a starting offset and stride, materialised to a
finite prefix of `k` elements. -/
def genEvents (alg : Nat → Nat → Nat) (cfg : GeneratorConfig)
    (offset step : Nat) : Nat → List (Option Event)
  | 0 => []
  | k + 1 => Event.new alg offset cfg :: genEvents alg cfg (offset + step) step k

/-- Naive counting used by the refinement claims: the number of indices
`k < n` satisfying `p`. -/
def countMatching (p : Nat → Bool) (n : Nat) : Nat :=
  ((List.range n).filter p).length

/-- From the claim's words: the number of indices in `[0, i]` whose in-epoch
offset falls in the person sub-range. -/
def personCount (cfg : GeneratorConfig) (i : Nat) : Nat :=
  countMatching
    (fun k => decide (k % cfg.proportion_denominator < cfg.person_proportion)) (i + 1)

/-- From the claim's words: the number of indices in `[0, i]` whose in-epoch
offset falls in the auction sub-range. -/
def auctionCount (cfg : GeneratorConfig) (i : Nat) : Nat :=
  countMatching
    (fun k => decide (cfg.person_proportion ≤ k % cfg.proportion_denominator ∧
      k % cfg.proportion_denominator <
        cfg.person_proportion + cfg.auction_proportion)) (i + 1)

/-- A concrete PRNG family for witnesses and counterexamples: every seed
expands to the constant stream of ones. -/
def alg1 : Nat → Nat → Nat := fun _ _ => 1

/-- A concrete witness configuration: proportions 1/1/1, unit windows and
leads, hot ratios 2, zero target payload sizes, singleton name pools, and the
identity timestamp curve. -/
def cfg1 : GeneratorConfig where
  first_event_id := 0
  first_person_id := 0
  first_auction_id := 0
  first_category_id := 0
  num_categories := 1
  person_proportion := 1
  auction_proportion := 1
  bid_proportion := 1
  active_people := 1
  in_flight_auctions := 1
  person_id_lead := 1
  auction_id_lead := 1
  hot_seller_ratio_ := 2
  hot_auction_ratio_ := 2
  hot_bidder_ratio_ := 2
  hot_channel_ratio_ := 2
  avg_person_byte_size := 0
  avg_auction_byte_size := 0
  avg_bid_byte_size := 0
  first_names := [[97]]
  last_names := [[98]]
  us_cities := [[99]]
  us_states := [[100]]
  hot_channels := [[101]]
  hot_urls := [[102]]
  base_time := 0
  event_timestamp := fun n => n

/-- Variant of `cfg1` with a zero person id lead (counterexample configuration). -/
def cfg0 : GeneratorConfig :=
  { cfg1 with person_id_lead := 0 }

/-- The bid produced by `Bid.new alg1 2 0` under `cfg1` (and `cfg0`): all
draws are 1, so the hot branches are taken. -/
def bidVal1 : Bid where
  auction := 0
  bidder := 1
  price := 1
  channel := [101]
  url := [102]
  date_time := 0
  extra := []

/-- The auction produced by `Auction.new alg1 1 1 1 cfg1`: all draws are 1. -/
def auctionVal1 : Auction where
  id := 0
  item_name := List.replicate 20 98
  description := List.replicate 100 98
  initial_bid := 1
  reserve := 2
  date_time := 1
  expires := 3
  seller := 0
  category := 0
  extra := []

theorem genRange_bounds {r : Rng} {lo hi v : Nat} {r' : Rng}
    (h : r.genRange lo hi = some (v, r')) : lo ≤ v ∧ v < hi := by
  unfold Rng.genRange at h
  split at h
  · rename_i hlt
    simp only [Option.some.injEq, Prod.mk.injEq] at h
    obtain ⟨hv, -⟩ := h
    have hm : r.stream r.pos % (hi - lo) < hi - lo := Nat.mod_lt _ (by omega)
    omega
  · exact absurd h (by simp)

theorem genRange_total {r : Rng} {lo hi : Nat} (hlt : lo < hi) :
    r.genRange lo hi = some (lo + r.stream r.pos % (hi - lo), ⟨r.stream, r.pos + 1⟩) := by
  unfold Rng.genRange
  simp [hlt]

theorem succ_divMod (i D : Nat) (hD : 0 < D) :
    ((i + 1) % D = i % D + 1 ∧ (i + 1) / D = i / D) ∨
      (i % D = D - 1 ∧ (i + 1) % D = 0 ∧ (i + 1) / D = i / D + 1) := by
  rcases Nat.lt_or_ge (i % D + 1) D with h | h
  · left
    have h1 : i + 1 = D * (i / D) + (i % D + 1) := by
      conv_lhs => rw [← Nat.div_add_mod i D]
      rw [Nat.add_assoc]
    constructor
    · rw [h1, Nat.mul_add_mod, Nat.mod_eq_of_lt h]
    · rw [h1, Nat.mul_add_div hD, Nat.div_eq_of_lt h, Nat.add_zero]
  · right
    have hm : i % D < D := Nat.mod_lt i hD
    have h2 : i % D = D - 1 := by omega
    have h1 : i + 1 = D * (i / D + 1) := by
      conv_lhs => rw [← Nat.div_add_mod i D]
      rw [h2, Nat.mul_add, Nat.mul_one]
      omega
    refine ⟨h2, ?_, ?_⟩
    · rw [h1, Nat.mul_mod_right]
    · rw [h1, Nat.mul_div_cancel_left _ hD]

theorem countMatching_succ (p : Nat → Bool) (n : Nat) :
    countMatching p (n + 1) = countMatching p n + (if p n then 1 else 0) := by
  unfold countMatching
  rw [List.range_succ, List.filter_append, List.length_append]
  by_cases h : p n <;> simp [h]

theorem count_person_closed (D P : Nat) (hP : 0 < P) (hPD : P ≤ D) (i : Nat) :
    countMatching (fun k => decide (k % D < P)) (i + 1) =
      i / D * P + min (i % D + 1) P := by
  have hD : 0 < D := lt_of_lt_of_le hP hPD
  induction i with
  | zero =>
      rw [countMatching_succ]
      simp only [countMatching, List.range_zero, List.filter_nil, List.length_nil,
        decide_eq_true_eq, Nat.zero_mod, Nat.zero_div, Nat.zero_mul]
      split_ifs <;> omega
  | succ i ih =>
      rw [countMatching_succ, ih]
      simp only [decide_eq_true_eq]
      rcases succ_divMod i D hD with ⟨hm, hd⟩ | ⟨ho, hm, hd⟩
      · rw [hm, hd]
        split_ifs <;> omega
      · rw [hm, hd, ho, Nat.add_mul, Nat.one_mul]
        split_ifs <;> omega

theorem count_auction_closed (D P A : Nat) (hP : 0 < P) (hA : 0 < A)
    (hPD : P + A ≤ D) (i : Nat) :
    countMatching (fun k => decide (P ≤ k % D ∧ k % D < P + A)) (i + 1) =
      i / D * A + (if i % D < P then 0 else min (i % D - P + 1) A) := by
  have hD : 0 < D := by omega
  induction i with
  | zero =>
      rw [countMatching_succ]
      simp only [countMatching, List.range_zero, List.filter_nil, List.length_nil,
        decide_eq_true_eq, Nat.zero_mod, Nat.zero_div, Nat.zero_mul]
      split_ifs <;> omega
  | succ i ih =>
      rw [countMatching_succ, ih]
      simp only [decide_eq_true_eq]
      rcases succ_divMod i D hD with ⟨hm, hd⟩ | ⟨ho, hm, hd⟩
      · rw [hm, hd]
        split_ifs <;> omega
      · rw [hm, hd, ho, Nat.add_mul, Nat.one_mul]
        split_ifs <;> omega

theorem person_last_id_count (cfg : GeneratorConfig)
    (hP : 0 < cfg.person_proportion) (i : Nat) :
    Person.last_id i cfg + 1 = personCount cfg i := by
  have hPD : cfg.person_proportion ≤ cfg.proportion_denominator := by
    unfold GeneratorConfig.proportion_denominator
    omega
  rw [personCount, count_person_closed _ _ hP hPD]
  simp only [Person.last_id]
  omega

theorem auction_last_id_count (cfg : GeneratorConfig)
    (hP : 0 < cfg.person_proportion) (hA : 0 < cfg.auction_proportion)
    (j : Nat) (hj : cfg.proportion_denominator ≤ j) :
    ∃ L, Auction.last_id j cfg = some L ∧ L + 1 = auctionCount cfg j := by
  have hPD : cfg.person_proportion + cfg.auction_proportion ≤
      cfg.proportion_denominator := by
    unfold GeneratorConfig.proportion_denominator
    omega
  have hD : 0 < cfg.proportion_denominator := by omega
  have he : 1 ≤ j / cfg.proportion_denominator := (Nat.one_le_div_iff hD).mpr hj
  have hsplit : j / cfg.proportion_denominator * cfg.auction_proportion =
      (j / cfg.proportion_denominator - 1) * cfg.auction_proportion +
        cfg.auction_proportion := by
    conv_lhs => rw [show j / cfg.proportion_denominator =
      j / cfg.proportion_denominator - 1 + 1 by omega]
    rw [Nat.add_mul, Nat.one_mul]
  have hmlt : j % cfg.proportion_denominator < cfg.proportion_denominator :=
    Nat.mod_lt _ hD
  rw [auctionCount, count_auction_closed _ _ _ hP hA hPD]
  simp only [Auction.last_id]
  split_ifs with h1 h2
  · exact absurd h2 (by omega)
  · exact ⟨_, rfl, by omega⟩
  · exact ⟨_, rfl, by omega⟩
  · exact ⟨_, rfl, by omega⟩

theorem gen_exact_string_spec (n : Nat) : ∀ r : Rng, ∃ s r',
    r.gen_exact_string n = some (s, r') ∧ s.length = n ∧
      ∀ c ∈ s, 97 ≤ c ∧ c ≤ 122 := by
  induction n with
  | zero => exact fun r => ⟨[], r, rfl, rfl, by simp⟩
  | succ n ih =>
      intro r
      obtain ⟨s, r', hs, hl, hc⟩ := ih ⟨r.stream, r.pos + 1⟩
      have hm : r.stream r.pos % 26 < 26 := Nat.mod_lt _ (by omega)
      refine ⟨(97 + r.stream r.pos % 26) :: s, r', ?_, by simp [hl], ?_⟩
      · show (Rng.gen_exact_string r (n + 1)) = _
        rw [Rng.gen_exact_string, genRange_total (by omega)]
        show (Rng.gen_exact_string ⟨r.stream, r.pos + 1⟩ n).bind _ = _
        rw [hs]
        rfl
      · intro c hcm
        rcases List.mem_cons.mp hcm with h | h
        · omega
        · exact hc c h

theorem gen_delim_char_spec (r : Rng) (delimiter : Nat) : ∃ c r',
    r.gen_delim_char delimiter = some (c, r') ∧
      (c = delimiter ∨ (97 ≤ c ∧ c ≤ 122)) := by
  rw [Rng.gen_delim_char]
  rw [show r.genRange 0 13 = some (0 + r.stream r.pos % 13, ⟨r.stream, r.pos + 1⟩) from
    genRange_total (by omega)]
  by_cases h : 0 + r.stream r.pos % 13 = 0
  · exact ⟨delimiter, ⟨r.stream, r.pos + 1⟩, by simp [h], Or.inl rfl⟩
  · refine ⟨97 + r.stream (r.pos + 1) % 26, ⟨r.stream, r.pos + 1 + 1⟩,
      by simp [h, Rng.genRange] at h ⊢ <;> simp [h], Or.inr (by
      have : r.stream (r.pos + 1) % 26 < 26 := Nat.mod_lt _ (by omega)
      omega)⟩

theorem gen_delim_chars_spec (n : Nat) (delimiter : Nat) : ∀ r : Rng, ∃ s r',
    r.gen_delim_chars n delimiter = some (s, r') ∧ s.length = n ∧
      ∀ c ∈ s, c = delimiter ∨ (97 ≤ c ∧ c ≤ 122) := by
  induction n with
  | zero => exact fun r => ⟨[], r, rfl, rfl, by simp⟩
  | succ n ih =>
      intro r
      obtain ⟨c, r', hcr, hcprop⟩ := gen_delim_char_spec r delimiter
      obtain ⟨s, r'', hs, hl, hcs⟩ := ih r'
      refine ⟨c :: s, r'', ?_, by simp [hl], ?_⟩
      · show (r.gen_delim_char delimiter).bind _ = _
        rw [hcr]
        show (Rng.gen_delim_chars r' n delimiter).bind _ = _
        rw [hs]
        rfl
      · intro x hxm
        rcases List.mem_cons.mp hxm with h | h
        · exact h ▸ hcprop
        · exact hcs x h

/-- C7: for every source state and every `max`, `gen_string(max)` returns a
string of exactly `max` characters, each a lowercase ASCII letter (codes 97 to
122) — never a shorter string. -/
theorem gen_string_exact (r : Rng) (max : Nat) : ∃ s r',
    r.gen_string max = some (s, r') ∧ s.length = max ∧
      ∀ c ∈ s, 97 ≤ c ∧ c ≤ 122 :=
  gen_exact_string_spec max r

/-- C8: for `max > 3`, `gen_string_with_delimiter` returns a string whose
length lies in `[3, max)` and whose characters are the delimiter or lowercase
letters; for `max ≤ 3` the length-sampling range `3..max` is empty and the
function panics (`none`). -/
theorem gen_string_with_delimiter_spec (r : Rng) (max delimiter : Nat) :
    (3 < max → ∃ s r', r.gen_string_with_delimiter max delimiter = some (s, r') ∧
      3 ≤ s.length ∧ s.length < max ∧
      ∀ c ∈ s, c = delimiter ∨ (97 ≤ c ∧ c ≤ 122)) ∧
    (max ≤ 3 → r.gen_string_with_delimiter max delimiter = none) := by
  constructor
  · intro hmax
    obtain ⟨s, r'', hs, hl, hc⟩ :=
      gen_delim_chars_spec (3 + r.stream r.pos % (max - 3)) delimiter
        ⟨r.stream, r.pos + 1⟩
    have hm : r.stream r.pos % (max - 3) < max - 3 := Nat.mod_lt _ (by omega)
    refine ⟨s, r'', ?_, by omega, by omega, hc⟩
    show (r.genRange MIN_STRING_LENGTH max).bind _ = _
    rw [show MIN_STRING_LENGTH = 3 from rfl, genRange_total hmax]
    exact hs
  · intro hmax
    show (r.genRange MIN_STRING_LENGTH max).bind _ = _
    rw [show r.genRange MIN_STRING_LENGTH max = none from
      by rw [Rng.genRange, if_neg (by simp [MIN_STRING_LENGTH]; omega)]]
    rfl

/-- Unfolds `gen_next_extra` in the non-trivial case to its sampling shape. -/
theorem gen_next_extra_eq (r : Rng) (cs t : Nat) (h : ¬ cs > t) :
    r.gen_next_extra cs t =
      ((if (t - cs + 2) / 5 = 0 then some (0, r)
          else r.genRange 0 (2 * ((t - cs + 2) / 5))) >>=
        fun p => p.2.gen_exact_string ((t - cs - (t - cs + 2) / 5) + p.1)) := by
  rw [Rng.gen_next_extra, if_neg h]
  by_cases hd : (t - cs + 2) / 5 = 0 <;> simp only [hd, if_true, if_false, reduceIte] <;> rfl

/-- C4 counterexample: at `current_size = 0`, `target_average = 1`, the
claim's `delta = ceil(1/5) = 1` and `min_size = 0` would make a padding of
length `0` a possible draw of a uniform `u` in `[0, 2)`; the code computes
`delta = (1+2)/5 = 0` and returns exactly one character for every possible
random stream, so length 0 is never produced. -/
theorem gen_next_extra_ceil_refuted :
    ¬ ∃ (stream : Nat → Nat) (s : List Nat) (r' : Rng),
      Rng.gen_next_extra ⟨stream, 0⟩ 0 1 = some (s, r') ∧ s.length = 0 := by
  rintro ⟨stream, s, r', h, hlen⟩
  have he : Rng.gen_next_extra ⟨stream, 0⟩ 0 1 =
      some ([97 + stream 0 % 26], ⟨stream, 1⟩) := rfl
  rw [he] at h
  simp only [Option.some.injEq, Prod.mk.injEq] at h
  obtain ⟨hs, -⟩ := h
  rw [← hs] at hlen
  simp at hlen

/-- C4 (amended): size-converging padding with the code's rounding
`delta = (remaining + 2) / 5` (nearest-integer rounding of `remaining / 5`,
not its ceiling): empty above target; exactly `min_size = remaining - delta`
characters when `delta = 0`; otherwise `min_size + u` characters for a drawn
`u < 2 * delta`, every such `u` being attainable; all characters lowercase. -/
theorem gen_next_extra_size (r : Rng) (current_size target : Nat) :
    (target < current_size → r.gen_next_extra current_size target = some ([], r)) ∧
    (current_size ≤ target →
      ((target - current_size + 2) / 5 = 0 → ∃ s r',
        r.gen_next_extra current_size target = some (s, r') ∧
        s.length = target - current_size ∧ ∀ c ∈ s, 97 ≤ c ∧ c ≤ 122) ∧
      (0 < (target - current_size + 2) / 5 →
        (∃ u s r', u < 2 * ((target - current_size + 2) / 5) ∧
          r.gen_next_extra current_size target = some (s, r') ∧
          s.length = target - current_size - (target - current_size + 2) / 5 + u ∧
          ∀ c ∈ s, 97 ≤ c ∧ c ≤ 122) ∧
        ∀ u, u < 2 * ((target - current_size + 2) / 5) →
          ∃ (r₂ : Rng) (s : List Nat) (r' : Rng), Rng.gen_next_extra r₂ current_size target = some (s, r') ∧
            s.length = target - current_size - (target - current_size + 2) / 5 + u)) := by
  constructor
  · intro h
    rw [Rng.gen_next_extra, if_pos h]
  · intro hle
    have hgt : ¬ current_size > target := by omega
    constructor
    · intro hd
      obtain ⟨s, r', hs, hl, hc⟩ :=
        gen_exact_string_spec (target - current_size - (target - current_size + 2) / 5 + 0) r
      refine ⟨s, r', ?_, by omega, hc⟩
      rw [gen_next_extra_eq r _ _ hgt, if_pos hd]
      exact hs
    · intro hd
      constructor
      · obtain ⟨s, r', hs, hl, hc⟩ :=
          gen_exact_string_spec
            (target - current_size - (target - current_size + 2) / 5 +
              r.stream r.pos % (2 * ((target - current_size + 2) / 5)))
            ⟨r.stream, r.pos + 1⟩
        have hm : r.stream r.pos % (2 * ((target - current_size + 2) / 5)) <
            2 * ((target - current_size + 2) / 5) := Nat.mod_lt _ (by omega)
        refine ⟨r.stream r.pos % (2 * ((target - current_size + 2) / 5)), s, r',
          hm, ?_, hl, hc⟩
        rw [gen_next_extra_eq r _ _ hgt, if_neg (by omega), genRange_total (by omega)]
        simpa using hs
      · intro u hu
        obtain ⟨s, r', hs, hl, hc⟩ :=
          gen_exact_string_spec
            (target - current_size - (target - current_size + 2) / 5 + u)
            ⟨fun _ => u, 1⟩
        refine ⟨⟨fun _ => u, 0⟩, s, r', ?_, hl⟩
        rw [gen_next_extra_eq _ _ _ hgt, if_neg (by omega), genRange_total (by omega)]
        simpa [Nat.mod_eq_of_lt hu] using hs

theorem genEvents_get (alg : Nat → Nat → Nat) (cfg : GeneratorConfig) (step : Nat) :
    ∀ (k offset i : Nat), i < k →
      (genEvents alg cfg offset step k).get? i =
        some (Event.new alg (offset + step * i) cfg) := by
  intro k
  induction k with
  | zero => exact fun offset i h => absurd h (Nat.not_lt_zero i)
  | succ k ih =>
      intro offset i h
      cases i with
      | zero => rfl
      | succ i =>
          show (genEvents alg cfg (offset + step) step k).get? i = _
          rw [ih (offset + step) i (by omega)]
          have harith : offset + step + step * i = offset + step * (i + 1) := by ring
          rw [harith]

/-- C1: event construction is deterministic: any two generator runs — for any
starting offsets, strides and positions — that compute the same event number
produce identical events, each equal to the pure per-index construction
`Event.new`, which seeds a fresh source from the event id and reads only the
immutable configuration. -/
theorem event_new_deterministic (alg : Nat → Nat → Nat) (cfg : GeneratorConfig)
    (o1 s1 k1 i1 o2 s2 k2 i2 : Nat) (h1 : i1 < k1) (h2 : i2 < k2)
    (hidx : o1 + s1 * i1 = o2 + s2 * i2) :
    (genEvents alg cfg o1 s1 k1).get? i1 = (genEvents alg cfg o2 s2 k2).get? i2 ∧
      (genEvents alg cfg o1 s1 k1).get? i1 = some (Event.new alg (o1 + s1 * i1) cfg) := by
  have e1 := genEvents_get alg cfg s1 k1 o1 i1 h1
  have e2 := genEvents_get alg cfg s2 k2 o2 i2 h2
  rw [e1, e2, hidx]
  exact ⟨rfl, rfl⟩

/-- C9: the channel/URL table is deterministic and size-stable: rebuilding
with the same size gives the same table, and entry `i` is a function of `i`
alone, so tables of sizes `n ≤ m` agree on every index below `n`. -/
theorem channel_url_map_stable (alg : Nat → Nat → Nat) (n m i : Nat)
    (hnm : n ≤ m) (hi : i < n) :
    build_channel_url_map alg n = build_channel_url_map alg n ∧
      (build_channel_url_map alg n).get? i = some (channelUrlEntry alg i) ∧
      (build_channel_url_map alg n).get? i = (build_channel_url_map alg m).get? i := by
  have h1 : (build_channel_url_map alg n).get? i = some (channelUrlEntry alg i) := by
    rw [build_channel_url_map, List.get?_map, List.get?_range hi]
    rfl
  have h2 : (build_channel_url_map alg m).get? i = some (channelUrlEntry alg i) := by
    rw [build_channel_url_map, List.get?_map, List.get?_range (lt_of_lt_of_le hi hnm)]
    rfl
  exact ⟨rfl, h1, h1.trans h2.symm⟩

/-- C10: `Auction::last_id` is total exactly off the epoch-0 person sub-range:
for `event_id < person_proportion` the epoch decrement underflows (the error
branch, Rust `usize` panic, is reached), for `event_id ≥ person_proportion`
the result is defined; and the generator only reaches it through auction- or
bid-typed events, whose ids (with `first_event_id = 0`) have offsets at or
beyond the person sub-range, hence are in the defined region. -/
theorem auction_last_id_domain (cfg : GeneratorConfig) (en eid : Nat)
    (hP : 0 < cfg.person_proportion) :
    (eid < cfg.person_proportion → Auction.last_id eid cfg = none) ∧
    (cfg.person_proportion ≤ eid → (Auction.last_id eid cfg).isSome = true) ∧
    (cfg.first_event_id = 0 → cfg.event_type en ≠ EventType.Person →
      (Auction.last_id (cfg.first_event_id + en) cfg).isSome = true) := by
  have hPD : cfg.person_proportion ≤ cfg.proportion_denominator := by
    unfold GeneratorConfig.proportion_denominator
    omega
  have hD : 0 < cfg.proportion_denominator := by omega
  refine ⟨?_, ?_, ?_⟩
  · intro hlt
    have hmod : eid % cfg.proportion_denominator = eid := Nat.mod_eq_of_lt (by omega)
    have hdiv : eid / cfg.proportion_denominator = 0 := Nat.div_eq_of_lt (by omega)
    simp only [Auction.last_id, hmod, hdiv]
    rw [if_pos (by omega)]
    simp
  · intro hge
    simp only [Auction.last_id]
    by_cases hm : eid % cfg.proportion_denominator < cfg.person_proportion
    · have hbig : cfg.proportion_denominator ≤ eid := by
        by_contra hc
        push_neg at hc
        rw [Nat.mod_eq_of_lt hc] at hm
        omega
      have hdiv : ¬ eid / cfg.proportion_denominator = 0 := by
        have := (Nat.one_le_div_iff hD).mpr hbig
        omega
      rw [if_pos hm, if_neg hdiv]
      rfl
    · rw [if_neg hm]
      split <;> rfl
  · intro hfe hnp
    have hm : cfg.person_proportion ≤ en % cfg.proportion_denominator := by
      by_contra hc
      push_neg at hc
      apply hnp
      simp only [GeneratorConfig.event_type]
      rw [if_pos hc]
    rw [hfe, Nat.zero_add]
    simp only [Auction.last_id]
    rw [if_neg (by omega)]
    split <;> rfl

theorem person_next_id_le {eid : Nat} {rng : Rng} {nex : GeneratorConfig}
    {v : Nat} {r' : Rng} (h : Person.next_id eid rng nex = some (v, r')) :
    v ≤ Person.last_id eid nex + nex.person_id_lead := by
  simp only [Person.next_id, Option.bind_eq_bind, Option.bind_eq_some] at h
  obtain ⟨⟨d, r1⟩, hd, h⟩ := h
  obtain ⟨-, hdlt⟩ := genRange_bounds hd
  simp only [Option.pure_def, Option.some.injEq, Prod.mk.injEq] at h
  obtain ⟨hv, -⟩ := h
  subst hv
  omega

theorem auction_next_id_le {eid : Nat} {rng : Rng} {nex : GeneratorConfig}
    {v : Nat} {r' : Rng} (h : Auction.next_id eid rng nex = some (v, r')) :
    ∃ L, Auction.last_id eid nex = some L ∧ v ≤ L + nex.auction_id_lead := by
  simp only [Auction.next_id, Option.bind_eq_bind, Option.bind_eq_some] at h
  obtain ⟨L, hL, h⟩ := h
  obtain ⟨⟨d, r1⟩, hd, h⟩ := h
  obtain ⟨-, hdlt⟩ := genRange_bounds hd
  simp only [Option.pure_def, Option.some.injEq, Prod.mk.injEq] at h
  obtain ⟨hv, -⟩ := h
  subst hv
  refine ⟨L, hL, ?_⟩
  by_cases hw : L < nex.in_flight_auctions <;>
    simp only [hw, if_true, if_false, reduceIte] at hdlt ⊢ <;> omega

theorem next_length_spec {en : Nat} {rng : Rng} {t : Nat} {cfg : GeneratorConfig}
    {len : Nat} {r' : Rng}
    (h : Auction.next_length en rng t cfg = some (len, r')) :
    t ≤ cfg.event_timestamp
        (en + cfg.in_flight_auctions * cfg.proportion_denominator / cfg.auction_proportion) ∧
      1 ≤ len ∧
      (cfg.event_timestamp
          (en + cfg.in_flight_auctions * cfg.proportion_denominator / cfg.auction_proportion)
          - t = 0 → len = 1) ∧
      (0 < cfg.event_timestamp
          (en + cfg.in_flight_auctions * cfg.proportion_denominator / cfg.auction_proportion)
          - t →
        len ≤ 2 * (cfg.event_timestamp
          (en + cfg.in_flight_auctions * cfg.proportion_denominator / cfg.auction_proportion)
          - t)) := by
  rw [Auction.next_length] at h
  split at h
  · rename_i hle
    simp only [Option.some_bind', Option.bind_eq_bind, Option.bind_eq_some] at h
    obtain ⟨⟨d, r1⟩, hd, h⟩ := h
    obtain ⟨-, hdlt⟩ := genRange_bounds hd
    simp only [Option.pure_def, Option.some.injEq, Prod.mk.injEq] at h
    obtain ⟨hlen, -⟩ := h
    refine ⟨hle, by omega, by omega, by omega⟩
  · simp at h

theorem next_length_total (en : Nat) (rng : Rng) (t : Nat) (cfg : GeneratorConfig)
    (hle : t ≤ cfg.event_timestamp
      (en + cfg.in_flight_auctions * cfg.proportion_denominator / cfg.auction_proportion)) :
    Auction.next_length en rng t cfg =
      some (1 + rng.stream rng.pos %
          max ((cfg.event_timestamp
            (en + cfg.in_flight_auctions * cfg.proportion_denominator / cfg.auction_proportion)
            - t) * 2) 1,
        ⟨rng.stream, rng.pos + 1⟩) := by
  rw [Auction.next_length]
  rw [if_pos hle]
  simp only [Option.bind_eq_bind, Option.some_bind']
  rw [genRange_total (by omega)]
  simp

theorem auction_new_facts {alg : Nat → Nat → Nat} {en eid t : Nat}
    {cfg : GeneratorConfig} {a : Auction}
    (h : Auction.new alg en eid t cfg = some a) :
    a.initial_bid ≤ a.reserve ∧ a.date_time = t ∧ a.date_time < a.expires ∧
      a.seller ≤ cfg.first_person_id + (Person.last_id eid cfg + cfg.person_id_lead) := by
  simp only [Auction.new, Rng.gen_price, Rng.next, Rng.gen_string,
    Option.bind_eq_bind, Option.bind_eq_some] at h
  obtain ⟨L, hL, h⟩ := h
  obtain ⟨⟨iname, r1⟩, hin, h⟩ := h
  simp only [Option.bind_eq_bind, Option.bind_eq_some] at h
  obtain ⟨⟨desc, r2⟩, hde, h⟩ := h
  simp only [Option.bind_eq_bind, Option.bind_eq_some] at h
  obtain ⟨⟨lenn, r3⟩, hlen, h⟩ := h
  obtain ⟨-, hlen1, -, -⟩ := next_length_spec hlen
  simp only [Option.bind_eq_bind, Option.bind_eq_some] at h
  obtain ⟨⟨hs0, r4⟩, hhs, h⟩ := h
  split at h
  · simp only [Option.pure_def, Option.some_bind', Option.bind_eq_bind,
      Option.bind_eq_some] at h
    obtain ⟨⟨cat, r5⟩, hcat, h⟩ := h
    simp only [Option.bind_eq_bind, Option.bind_eq_some] at h
    obtain ⟨⟨extra, r6⟩, hex, h⟩ := h
    simp only [Option.pure_def, Option.some.injEq] at h
    subst h
    have hdm : Person.last_id eid cfg / HOT_SELLER_RATIO_ * HOT_SELLER_RATIO_ ≤
        Person.last_id eid cfg := Nat.div_mul_le_self _ _
    refine ⟨by simp, rfl, by simp; omega, by simp; omega⟩
  · simp only [Option.bind_eq_bind, Option.bind_eq_some] at h
    obtain ⟨⟨sel, r5⟩, hsel, h⟩ := h
    have hselb := person_next_id_le hsel
    simp only [Option.bind_eq_bind, Option.bind_eq_some] at h
    obtain ⟨⟨cat, r6⟩, hcat, h⟩ := h
    simp only [Option.bind_eq_bind, Option.bind_eq_some] at h
    obtain ⟨⟨extra, r7⟩, hex, h⟩ := h
    simp only [Option.pure_def, Option.some.injEq] at h
    subst h
    refine ⟨by simp, rfl, by simp; omega, by simp; omega⟩

theorem bid_new_facts {alg : Nat → Nat → Nat} {eid t : Nat}
    {nex : GeneratorConfig} {b : Bid}
    (h : Bid.new alg eid t nex = some b) :
    ∃ L, Auction.last_id eid nex = some L ∧
      b.auction ≤ nex.first_auction_id + (L + nex.auction_id_lead) ∧
      (1 ≤ nex.person_id_lead →
        b.bidder ≤ nex.first_person_id + (Person.last_id eid nex + nex.person_id_lead)) ∧
      b.date_time = t := by
  have hpm : Person.last_id eid nex / HOT_BIDDER_RATIO_ * HOT_BIDDER_RATIO_ ≤
      Person.last_id eid nex := Nat.div_mul_le_self _ _
  simp only [Bid.new, Rng.gen_price, Rng.next,
    Option.bind_eq_bind, Option.bind_eq_some] at h
  obtain ⟨⟨ha0, r1⟩, hha, h⟩ := h
  split at h
  · -- hot auction branch
    simp only [Option.bind_eq_bind, Option.bind_eq_some, Option.pure_def,
      Option.some_bind'] at h
    obtain ⟨L, hL, h⟩ := h
    have hab : L / HOT_AUCTION_RATIO_ * HOT_AUCTION_RATIO_ ≤ L + nex.auction_id_lead :=
      le_trans (Nat.div_mul_le_self _ _) (Nat.le_add_right _ _)
    obtain ⟨⟨hb0, r2⟩, hhb, h⟩ := h
    split at h
    · simp only [Option.bind_eq_bind, Option.bind_eq_some, Option.pure_def,
        Option.some_bind', Rng.gen_price, Rng.next] at h
      obtain ⟨⟨cu, r3⟩, hcu, h⟩ := h
      obtain ⟨⟨extra, r4⟩, hex, h⟩ := h
      simp only [Option.some.injEq] at h
      subst h
      exact ⟨L, hL, by simp; omega, by intro hlead; simp; omega, rfl⟩
    · simp only [Option.bind_eq_bind, Option.bind_eq_some, Option.pure_def,
        Option.some_bind', Rng.gen_price, Rng.next] at h
      obtain ⟨⟨braw, r3⟩, hbsel, h⟩ := h
      have hbb := person_next_id_le hbsel
      obtain ⟨⟨cu, r4⟩, hcu, h⟩ := h
      obtain ⟨⟨extra, r5⟩, hex, h⟩ := h
      simp only [Option.some.injEq] at h
      subst h
      exact ⟨L, hL, by simp; omega, by intro hlead; simp; omega, rfl⟩
  · -- windowed auction branch
    simp only [Option.bind_eq_bind, Option.bind_eq_some] at h
    obtain ⟨⟨araw, r2⟩, hasel, h⟩ := h
    obtain ⟨L, hL, hab⟩ := auction_next_id_le hasel
    obtain ⟨⟨hb0, r3⟩, hhb, h⟩ := h
    split at h
    · simp only [Option.bind_eq_bind, Option.bind_eq_some, Option.pure_def,
        Option.some_bind', Rng.gen_price, Rng.next] at h
      obtain ⟨⟨cu, r4⟩, hcu, h⟩ := h
      obtain ⟨⟨extra, r5⟩, hex, h⟩ := h
      simp only [Option.some.injEq] at h
      subst h
      exact ⟨L, hL, by simp; omega, by intro hlead; simp; omega, rfl⟩
    · simp only [Option.bind_eq_bind, Option.bind_eq_some, Option.pure_def,
        Option.some_bind', Rng.gen_price, Rng.next] at h
      obtain ⟨⟨braw, r4⟩, hbsel, h⟩ := h
      have hbb := person_next_id_le hbsel
      obtain ⟨⟨cu, r5⟩, hcu, h⟩ := h
      obtain ⟨⟨extra, r6⟩, hex, h⟩ := h
      simp only [Option.some.injEq] at h
      subst h
      exact ⟨L, hL, by simp; omega, by intro hlead; simp; omega, rfl⟩

/-- C2 counterexample: with `person_id_lead = 0`, `hot_bidder_ratio = 2` and
`first_person_id = 0`, event id 2 (a bid slot) can draw the hot-bidder branch,
whose bidder id `(Person::last_id / 100) * 100 + 1 = 1` exceeds
`Person::last_id(2) + person_id_lead = 0`, violating the claimed bound. -/
theorem bid_bidder_exceeds_zero_lead :
    ∃ b, Bid.new alg1 2 0 cfg0 = some b ∧
      cfg0.first_person_id + (Person.last_id 2 cfg0 + cfg0.person_id_lead) <
        b.bidder := by
  refine ⟨{ bidVal1 with date_time := 0 }, by decide, by decide⟩

/-- C2 (amended): for every event id, every random draw and every
configuration, whenever construction succeeds, the bid's auction reference
(id space value plus the configured first id) is bounded by
`Auction::last_id + auction_id_lead` and the auction's seller by
`Person::last_id + person_id_lead`, both for any lead; the bid's bidder is
bounded by `Person::last_id + person_id_lead` provided `person_id_lead ≥ 1`,
which the hot-bidder offset of `+1` forces.  This covers both the hot-key and
the windowed-sampling branches. -/
theorem ref_bounds_with_lead (alg : Nat → Nat → Nat) (cfg : GeneratorConfig)
    (eid t en eid2 t2 : Nat) (b : Bid) (a : Auction)
    (hb : Bid.new alg eid t cfg = some b)
    (ha : Auction.new alg en eid2 t2 cfg = some a) :
    (∃ L, Auction.last_id eid cfg = some L ∧
      b.auction ≤ cfg.first_auction_id + (L + cfg.auction_id_lead)) ∧
    a.seller ≤ cfg.first_person_id + (Person.last_id eid2 cfg + cfg.person_id_lead) ∧
    (1 ≤ cfg.person_id_lead →
      b.bidder ≤ cfg.first_person_id + (Person.last_id eid cfg + cfg.person_id_lead)) := by
  obtain ⟨L, hL, hba, hbb, -⟩ := bid_new_facts hb
  obtain ⟨-, -, -, hse⟩ := auction_new_facts ha
  exact ⟨⟨L, hL, hba⟩, hse, hbb⟩

theorem ref_bounds_with_lead_witness :
    ∃ b a, Bid.new alg1 2 0 cfg1 = some b ∧ Auction.new alg1 1 1 1 cfg1 = some a ∧
      (∃ L, Auction.last_id 2 cfg1 = some L ∧
        b.auction ≤ cfg1.first_auction_id + (L + cfg1.auction_id_lead)) ∧
      a.seller ≤ cfg1.first_person_id + (Person.last_id 1 cfg1 + cfg1.person_id_lead) ∧
      b.bidder ≤ cfg1.first_person_id + (Person.last_id 2 cfg1 + cfg1.person_id_lead) := by
  have hb : Bid.new alg1 2 0 cfg1 = some bidVal1 := by decide
  have ha : Auction.new alg1 1 1 1 cfg1 = some auctionVal1 := by decide
  obtain ⟨h1, h2, h3⟩ :=
    ref_bounds_with_lead alg1 cfg1 2 0 1 1 1 _ _ hb ha
  exact ⟨_, _, hb, ha, h1, h2, h3 (by decide)⟩

/-- C6: every generated auction satisfies `reserve ≥ initial_bid`: the reserve
is the initial bid plus a second nonnegative sampled price. -/
theorem auction_reserve_ge_initial (alg : Nat → Nat → Nat) (en eid t : Nat)
    (cfg : GeneratorConfig) (a : Auction)
    (h : Auction.new alg en eid t cfg = some a) :
    a.initial_bid ≤ a.reserve :=
  (auction_new_facts h).1

theorem auction_reserve_ge_initial_witness :
    ∃ a, Auction.new alg1 1 1 1 cfg1 = some a ∧ a.initial_bid ≤ a.reserve := by
  have ha : Auction.new alg1 1 1 1 cfg1 = some auctionVal1 := by decide
  exact ⟨_, ha, auction_reserve_ge_initial alg1 1 1 1 cfg1 _ ha⟩

/-- C5: with a non-decreasing timestamp curve, `Auction::next_length` always
succeeds and returns a duration that is at least 1, exactly 1 when the
look-ahead horizon is 0, and at most twice the horizon otherwise; consequently
every generated auction expires strictly after its own timestamp. -/
theorem next_length_bounds (alg : Nat → Nat → Nat) (cfg : GeneratorConfig)
    (en : Nat) (rng : Rng)
    (hmono : ∀ x y, x ≤ y → cfg.event_timestamp x ≤ cfg.event_timestamp y) :
    (∃ len r', Auction.next_length en rng (cfg.event_timestamp en) cfg =
        some (len, r') ∧
      1 ≤ len ∧
      (cfg.event_timestamp (en + cfg.in_flight_auctions * cfg.proportion_denominator /
          cfg.auction_proportion) - cfg.event_timestamp en = 0 → len = 1) ∧
      (0 < cfg.event_timestamp (en + cfg.in_flight_auctions * cfg.proportion_denominator /
          cfg.auction_proportion) - cfg.event_timestamp en →
        len ≤ 2 * (cfg.event_timestamp (en + cfg.in_flight_auctions *
          cfg.proportion_denominator / cfg.auction_proportion) -
            cfg.event_timestamp en))) ∧
    ∀ eid t2 a, Auction.new alg en eid t2 cfg = some a → a.date_time < a.expires := by
  constructor
  · have hle : cfg.event_timestamp en ≤ cfg.event_timestamp
        (en + cfg.in_flight_auctions * cfg.proportion_denominator /
          cfg.auction_proportion) := hmono _ _ (Nat.le_add_right _ _)
    have htot := next_length_total en rng (cfg.event_timestamp en) cfg hle
    obtain ⟨-, h1, h2, h3⟩ := next_length_spec htot
    exact ⟨_, _, htot, h1, h2, h3⟩
  · intro eid t2 a ha
    exact (auction_new_facts ha).2.2.1

theorem next_length_bounds_witness :
    (∃ len r', Auction.next_length 1 ⟨fun _ => 1, 0⟩ (cfg1.event_timestamp 1) cfg1 =
        some (len, r') ∧
      1 ≤ len ∧
      (cfg1.event_timestamp (1 + cfg1.in_flight_auctions * cfg1.proportion_denominator /
          cfg1.auction_proportion) - cfg1.event_timestamp 1 = 0 → len = 1) ∧
      (0 < cfg1.event_timestamp (1 + cfg1.in_flight_auctions * cfg1.proportion_denominator /
          cfg1.auction_proportion) - cfg1.event_timestamp 1 →
        len ≤ 2 * (cfg1.event_timestamp (1 + cfg1.in_flight_auctions *
          cfg1.proportion_denominator / cfg1.auction_proportion) -
            cfg1.event_timestamp 1))) ∧
    ∀ eid t2 a, Auction.new alg1 1 eid t2 cfg1 = some a → a.date_time < a.expires :=
  next_length_bounds alg1 cfg1 1 ⟨fun _ => 1, 0⟩ (fun x y h => h)

theorem event_new_deterministic_witness :
    (genEvents alg1 cfg1 0 1 3).get? 2 = (genEvents alg1 cfg1 2 5 1).get? 0 ∧
      (genEvents alg1 cfg1 0 1 3).get? 2 = some (Event.new alg1 (0 + 1 * 2) cfg1) :=
  event_new_deterministic alg1 cfg1 0 1 3 2 2 5 1 0 (by decide) (by decide) (by decide)

/-- C3: the closed-form last-id functions agree with naive counting: with
positive person and auction proportions (the denominator being their sum with
the bid proportion), `Person::last_id(i) + 1` is the number of indices in
`[0, i]` with offset in the person sub-range, and, for `j` at least one full
epoch in, `Auction::last_id(j) + 1` is the number of indices in `[0, j]` with
offset in the auction sub-range. -/
theorem last_id_counts (cfg : GeneratorConfig) (i j : Nat)
    (hP : 0 < cfg.person_proportion) (hA : 0 < cfg.auction_proportion)
    (hj : cfg.proportion_denominator ≤ j) :
    Person.last_id i cfg + 1 = personCount cfg i ∧
      ∃ L, Auction.last_id j cfg = some L ∧ L + 1 = auctionCount cfg j :=
  ⟨person_last_id_count cfg hP i, auction_last_id_count cfg hP hA j hj⟩

theorem last_id_counts_witness :
    Person.last_id 5 cfg1 + 1 = personCount cfg1 5 ∧
      ∃ L, Auction.last_id 7 cfg1 = some L ∧ L + 1 = auctionCount cfg1 7 :=
  last_id_counts cfg1 5 7 (by decide) (by decide) (by decide)

theorem gen_next_extra_size_witness :
    Rng.gen_next_extra ⟨fun _ => 1, 0⟩ 5 3 = some ([], ⟨fun _ => 1, 0⟩) ∧
    (∃ s r', Rng.gen_next_extra ⟨fun _ => 1, 0⟩ 0 2 = some (s, r') ∧
      s.length = 2 ∧ ∀ c ∈ s, 97 ≤ c ∧ c ≤ 122) ∧
    (∃ u s r', u < 8 ∧ Rng.gen_next_extra ⟨fun _ => 1, 0⟩ 0 20 = some (s, r') ∧
      s.length = 16 + u ∧ ∀ c ∈ s, 97 ≤ c ∧ c ≤ 122) :=
  ⟨(gen_next_extra_size ⟨fun _ => 1, 0⟩ 5 3).1 (by decide),
    ((gen_next_extra_size ⟨fun _ => 1, 0⟩ 0 2).2 (by decide)).1 (by decide),
    (((gen_next_extra_size ⟨fun _ => 1, 0⟩ 0 20).2 (by decide)).2 (by decide)).1⟩

theorem gen_string_with_delimiter_witness :
    (∃ s r', Rng.gen_string_with_delimiter ⟨fun _ => 1, 0⟩ 5 95 = some (s, r') ∧
      3 ≤ s.length ∧ s.length < 5 ∧ ∀ c ∈ s, c = 95 ∨ (97 ≤ c ∧ c ≤ 122)) ∧
    Rng.gen_string_with_delimiter ⟨fun _ => 1, 0⟩ 2 95 = none :=
  ⟨(gen_string_with_delimiter_spec ⟨fun _ => 1, 0⟩ 5 95).1 (by decide),
    (gen_string_with_delimiter_spec ⟨fun _ => 1, 0⟩ 2 95).2 (by decide)⟩

theorem channel_url_map_stable_witness :
    build_channel_url_map alg1 2 = build_channel_url_map alg1 2 ∧
      (build_channel_url_map alg1 2).get? 1 = some (channelUrlEntry alg1 1) ∧
      (build_channel_url_map alg1 2).get? 1 = (build_channel_url_map alg1 3).get? 1 :=
  channel_url_map_stable alg1 2 3 1 (by decide) (by decide)

theorem auction_last_id_domain_witness :
    Auction.last_id 0 cfg1 = none ∧
      (Auction.last_id 1 cfg1).isSome = true ∧
      (Auction.last_id (cfg1.first_event_id + 1) cfg1).isSome = true :=
  ⟨(auction_last_id_domain cfg1 1 0 (by decide)).1 (by decide),
    (auction_last_id_domain cfg1 1 1 (by decide)).2.1 (by decide),
    (auction_last_id_domain cfg1 1 1 (by decide)).2.2 (by decide) (by decide)⟩

end Nexmark
